import Mathlib

/-!
Verification of the TAS (transient-absorption) core of this repository:
the ΔAbs engine, the wavelength-calibration model, the peak finder and
the dataset registry, embedded from

  - TAS/bata/GUI_ver3.7_calib_support.py
  - TAS/bata/Chromex_Calibration_ver1.0.py
  - TAS/bata/Chromex_Calibration_ver1.4.py

Intensities, wavelengths and channel values are Python floats; they are
modelled by exact rationals, and real numbers where the natural logarithm
is involved.  A float NaN produced by a guarded log-ratio is modelled as
`none` in an `Option` result.  The natural logarithm `np.log` is kept as
an explicit function parameter `lg` in the definitions so that they stay
computable; the theorems instantiate it with `Real.log`.
-/

/-- Embedding of the per-channel loop of `DataGraphApp._calc_log` (GUI_ver3.7,
lines 163-167).  The Python code iterates `zip(ref_p, sig, sig_p, ref)` -- so
it silently truncates to the shortest of the four lists -- and appends
`np.log((rp*s)/(sp*r))` when `r != 0 and sp != 0`, `np.nan` otherwise.
The logarithm is the parameter `lg` (instantiated with `Real.log` in the
theorems), NaN is `none`. -/
def calcLogWith (lg : ℚ → ℝ) : List ℚ → List ℚ → List ℚ → List ℚ → List (Option ℝ)
  | rp :: rps, s :: ss, sp :: sps, r :: rs =>
      (if r ≠ 0 ∧ sp ≠ 0 then some (lg ((rp * s) / (sp * r))) else none)
        :: calcLogWith lg rps ss sps rs
  | _, _, _, _ => []

/-- Embedding of the raw-trace computation of `DataGraphApp.plot_graph`
(GUI_ver3.7, line 153): it receives the six parsed spectra but calls
`self._calc_log(y_ref_p, y_sig, y_sig_p, y_ref)` on the UNCORRECTED
spectra; the two dark spectra are parsed and used only for the
`results` difference displays, not for the log-ratio. -/
def rawTraceWith (lg : ℚ → ℝ) (dark_ref dark_sig ref sig ref_p sig_p : List ℚ) :
    List (Option ℝ) :=
  calcLogWith lg ref_p sig sig_p ref

/-- Definition following the words of the spec (section 4.4, steps 1 and 2),
for comparison with the code embedding `rawTraceWith`: dark-correct the four
spectra first, then take the log ratio of the dark-corrected values, guarded
by `ref0_i ≠ 0` and `sigp0_i ≠ 0`. -/
def specRawWith (lg : ℚ → ℝ) :
    List ℚ → List ℚ → List ℚ → List ℚ → List ℚ → List ℚ → List (Option ℝ)
  | dr :: drs, ds :: dss, r :: rs, s :: ss, rp :: rps, sp :: sps =>
      (if r - dr ≠ 0 ∧ sp - ds ≠ 0 then
        some (lg (((rp - dr) * (s - ds)) / ((sp - ds) * (r - dr))))
      else none) :: specRawWith lg drs dss rs ss rps sps
  | _, _, _, _, _, _ => []

/-- The logarithm actually used by the code (`np.log` on float values),
modelled as the real logarithm on the rational inputs. -/
noncomputable def rlog (q : ℚ) : ℝ := Real.log (q : ℝ)

/-- Embedding of `DataGraphApp._norm_abs` (GUI_ver3.7, lines 169-171):
`arr = np.abs(arr); m = arr.max() or 1; return arr / m`.  On an empty
input `np.max` raises (zero-size reduction), modelled as `none`; the
Python `or` replaces a zero maximum by 1. -/
def npMax : List ℚ → Option ℚ
  | [] => none
  | x :: xs => some (xs.foldl max x)

/-- Embedding of `DataGraphApp._norm_abs` itself. -/
def norm_abs (arr : List ℚ) : Option (List ℚ) :=
  match npMax (arr.map (fun a => |a|)) with
  | none => none
  | some m => some (arr.map (fun a => |a| / (if m = 0 then 1 else m)))

/-- Embedding of `DataGraphApp._apply_calib` (GUI_ver3.7, lines 97-99):
`if self.calib_a is None: return x` else the affine map over the list.
The pair of coefficients is `none` while uncalibrated. -/
def apply_calib (calib : Option (ℚ × ℚ)) (x : List ℚ) : List ℚ :=
  match calib with
  | none => x
  | some (a, b) => x.map (fun ch => a * ch + b)

/-- Embedding of Python `d.get(k, v)` over a mapping represented as an
association list: the value of the first matching key, else the default. -/
def dictGet {α : Type} (d : List (ℕ × α)) (k : ℕ) (v : α) : α :=
  ((d.find? (fun p => p.1 = k)).map Prod.snd).getD v

/-- Embedding of `DataGraphApp.load_selected_pulse_data` (GUI_ver3.7,
lines 185-191): `data = self.pulse_data.get(sel[0].text(), {})`, after
which the text boxes are filled from `data`.  Dataset names and the six
labelled text payloads are modelled as naturals; the registry value of a
name is its label-to-text mapping.  An unknown name yields the default
empty mapping, and no error of any kind. -/
def load_selected_pulse_data (pulse_data : List (ℕ × List (ℕ × ℕ))) (name : ℕ) :
    List (ℕ × ℕ) :=
  dictGet pulse_data name []

/-! ## C1: which spectra feed the log ratio -/

/-- Claim C1 as stated is false: the code takes the log ratio over the raw
parsed spectra, not over the dark-corrected ones.  Concrete input with one
channel: `dark_ref = [1]`, `dark_sig = [0]`, `ref = [1]`, `sig = [1]`,
`ref_p = [2]`, `sig_p = [1]`.  The spec formula has `ref0 = 1 - 1 = 0`,
hence demands NaN; the code computes `log ((2*1)/(1*1))`, a number. -/
theorem calcLog_uses_uncorrected_spectra :
    rawTraceWith rlog [1] [0] [1] [1] [2] [1] ≠
      specRawWith rlog [1] [0] [1] [1] [2] [1] := by
  intro h
  norm_num [rawTraceWith, calcLogWith, specRawWith] at h
  exact Option.noConfusion h

/-- C1 amended: for every channel in range, the raw transient absorbance is
the log ratio over the RAW spectra, `raw_i = ln((ref_p_i * sig_i) /
(sig_p_i * ref_i))` whenever `ref_i ≠ 0` and `sig_p_i ≠ 0`, and NaN
otherwise; the dark spectra are not used. -/
theorem calcLog_elementwise (lg : ℚ → ℝ) (dref dsig ref sig refp sigp : List ℚ)
    (i : ℕ) (h1 : i < refp.length) (h2 : i < sig.length) (h3 : i < sigp.length)
    (h4 : i < ref.length) :
    (rawTraceWith lg dref dsig ref sig refp sigp).getD i none =
      (if ref.getD i 0 ≠ 0 ∧ sigp.getD i 0 ≠ 0 then
        some (lg ((refp.getD i 0 * sig.getD i 0) / (sigp.getD i 0 * ref.getD i 0)))
      else none) := by
  unfold rawTraceWith
  induction refp generalizing sig sigp ref i with
  | nil => simp at h1
  | cons rp rps ih =>
    cases sig with
    | nil => simp at h2
    | cons s ss =>
      cases sigp with
      | nil => simp at h3
      | cons sp sps =>
        cases ref with
        | nil => simp at h4
        | cons r rs =>
          cases i with
          | zero => simp [calcLogWith]
          | succ n =>
            simp only [List.length_cons, Nat.succ_lt_succ_iff] at h1 h2 h3 h4
            simp only [calcLogWith, List.getD_cons_succ]
            apply ih <;> assumption

/-- Witness for `calcLog_elementwise` at channel 0 of the counterexample
input: the code formula evaluates on the raw values. -/
theorem calcLog_elementwise_witness :
    0 < 1 ∧
      (rawTraceWith rlog [1] [0] [1] [1] [2] [1]).getD 0 none =
        (if ([(1 : ℚ)].getD 0 0 ≠ 0 ∧ [(1 : ℚ)].getD 0 0 ≠ 0) then
          some (rlog (([(2 : ℚ)].getD 0 0 * [(1 : ℚ)].getD 0 0) /
            ([(1 : ℚ)].getD 0 0 * [(1 : ℚ)].getD 0 0)))
        else none) :=
  ⟨by decide,
    calcLog_elementwise rlog [1] [0] [1] [1] [2] [1] 0
      (by decide) (by decide) (by decide) (by decide)⟩

/-! ## C2: no length check, zip truncates -/

/-- Claim C2 as stated is false: with six spectra of unequal lengths
(`ref` of length 1, the rest of length 2) no error is signalled; the
code returns a truncated (length 1) trace. -/
theorem compute_truncates_on_mismatch :
    (rawTraceWith rlog [0, 0] [0, 0] [1] [1, 1] [1, 1] [1, 1]).length = 1 := by
  norm_num [rawTraceWith, calcLogWith]

/-- C2 amended: `compute` performs no length check at all; `zip` truncation
makes the raw trace as long as the shortest of the four spectra actually
consumed by `_calc_log` (`ref_p`, `sig`, `sig_p`, `ref`); the dark spectra
do not constrain the length. -/
theorem calcLog_length (lg : ℚ → ℝ) (dref dsig ref sig refp sigp : List ℚ) :
    (rawTraceWith lg dref dsig ref sig refp sigp).length =
      min (min (min refp.length sig.length) sigp.length) ref.length := by
  unfold rawTraceWith
  induction refp generalizing sig sigp ref with
  | nil => simp [calcLogWith]
  | cons rp rps ih =>
    cases sig with
    | nil => simp [calcLogWith]
    | cons s ss =>
      cases sigp with
      | nil => simp [calcLogWith]
      | cons sp sps =>
        cases ref with
        | nil => simp [calcLogWith]
        | cons r rs =>
          simp only [calcLogWith, List.length_cons]
          rw [ih rs ss sps]
          omega

/-! ## C4: registry lookup returns an empty default -/

/-- Claim C4 as stated is false: looking up a name absent from the registry
does not signal NotFound; `dict.get(name, \x7b\x7d)` silently returns the
empty dataset.  Registry holding only name 0; lookup of name 1. -/
theorem load_unknown_returns_default :
    load_selected_pulse_data [(0, [(0, 7)])] 1 = [] := by
  decide

/-- C4 amended: `load` on a name not present in the registry returns the
empty mapping (the `dict.get` default) and signals nothing. -/
theorem load_not_found (pulse_data : List (ℕ × List (ℕ × ℕ))) (name : ℕ)
    (h : ∀ p ∈ pulse_data, p.1 ≠ name) :
    load_selected_pulse_data pulse_data name = [] := by
  unfold load_selected_pulse_data dictGet
  have : pulse_data.find? (fun p => p.1 = name) = none := by
    rw [List.find?_eq_none]
    intro p hp
    simpa using h p hp
  rw [this]
  rfl

/-- Witness for `load_not_found` on a one-entry registry. -/
theorem load_not_found_witness :
    (∀ p ∈ [((0 : ℕ), [((0 : ℕ), (7 : ℕ))])], p.1 ≠ 1) ∧
      load_selected_pulse_data [(0, [(0, 7)])] 1 = [] :=
  ⟨by decide, load_not_found [(0, [(0, 7)])] 1 (by decide)⟩

/-! ## C7: apply is the identity when uncalibrated, affine once fit -/

/-- C7: `_apply_calib` is the identity on any input while no coefficients
are loaded, and the elementwise affine map `ch ↦ a*ch + b` once `(a, b)`
are set. -/
theorem apply_calib_identity_or_affine :
    (∀ x : List ℚ, apply_calib none x = x) ∧
      (∀ (a b : ℚ) (x : List ℚ) (i : ℕ), i < x.length →
        (apply_calib (some (a, b)) x).getD i 0 = a * x.getD i 0 + b) := by
  constructor
  · intro x; rfl
  · intro a b x i hi
    simp [apply_calib, List.getD_eq_getElem?_getD, List.getElem?_map,
      List.getElem?_eq_getElem hi]

/-- Witness for `apply_calib_identity_or_affine` at a concrete list. -/
theorem apply_calib_identity_or_affine_witness :
    0 < 2 ∧ (apply_calib (some ((3 : ℚ), 4)) [5, 6]).getD 0 0 =
      3 * ([(5 : ℚ), 6].getD 0 0) + 4 :=
  ⟨by decide, apply_calib_identity_or_affine.2 3 4 [5, 6] 0 (by decide)⟩

/-! ## C9: all-zero darks and equal pumped spectra -/

/-- Claim C9 as stated is false: with all spectra `[0]` (darks all-zero,
`ref_p = ref`, `sig_p = sig`, one common length) the guard fails on the
zero channel and the code yields NaN, not 0. -/
theorem calcLog_zero_channel_nan :
    rawTraceWith rlog [0] [0] [0] [0] [0] [0] = [none] ∧
      (none : Option ℝ) ≠ some (0 : ℝ) := by
  constructor
  · norm_num [rawTraceWith, calcLogWith]
  · simp

/-- C9 amended, channel by channel: with all-zero darks, `ref_p = ref` and
`sig_p = sig` of one common length, every channel whose `ref` and `sig`
values are nonzero gets `raw_i = ln((ref_i * sig_i)/(sig_i * ref_i)) =
ln 1 = 0`, and every channel with `ref_i = 0` or `sig_i = 0` gets NaN --
also on mixed spectra holding both kinds of channel. -/
theorem calcLog_ratio_one (ref sig : List ℚ) (hlen : ref.length = sig.length)
    (i : ℕ) (hi : i < ref.length) :
    (rawTraceWith rlog (List.replicate ref.length 0)
        (List.replicate ref.length 0) ref sig ref sig).getD i none =
      (if ref.getD i 0 ≠ 0 ∧ sig.getD i 0 ≠ 0 then some (0 : ℝ) else none) := by
  unfold rawTraceWith
  induction ref generalizing sig i with
  | nil => simp at hi
  | cons r rs ih =>
    cases sig with
    | nil => simp at hlen
    | cons s ss =>
      cases i with
      | zero =>
        simp only [calcLogWith, List.getD_cons_zero]
        by_cases hr : r ≠ 0
        · by_cases hs : s ≠ 0
          · have hratio : ((r * s) / (s * r) : ℚ) = 1 := by
              rw [mul_comm s r]
              exact div_self (mul_ne_zero hr hs)
            rw [if_pos ⟨hr, hs⟩, if_pos ⟨hr, hs⟩]
            simp [hratio, rlog]
          · rw [if_neg (fun hc => hs hc.2), if_neg (fun hc => hs hc.2)]
        · rw [if_neg (fun hc => hr hc.1), if_neg (fun hc => hr hc.1)]
      | succ n =>
        simp only [List.length_cons, Nat.succ_lt_succ_iff] at hi
        simp only [calcLogWith, List.getD_cons_succ]
        exact ih ss (by simpa using hlen) n hi

/-- Witness for `calcLog_ratio_one` on the mixed spectra `ref = [2, 0]`,
`sig = [3, 5]`: channel 0 has nonzero `ref` and `sig` and yields 0,
channel 1 has `ref_1 = 0` and yields NaN. -/
theorem calcLog_ratio_one_witness :
    ([(2 : ℚ), 0].length = [(3 : ℚ), 5].length ∧ 0 < [(2 : ℚ), 0].length ∧
        1 < [(2 : ℚ), 0].length) ∧
      (rawTraceWith rlog (List.replicate ([(2 : ℚ), 0].length) 0)
          (List.replicate ([(2 : ℚ), 0].length) 0)
          [2, 0] [3, 5] [2, 0] [3, 5]).getD 0 none =
        (if [(2 : ℚ), 0].getD 0 0 ≠ 0 ∧ [(3 : ℚ), 5].getD 0 0 ≠ 0 then
          some (0 : ℝ) else none) ∧
      (rawTraceWith rlog (List.replicate ([(2 : ℚ), 0].length) 0)
          (List.replicate ([(2 : ℚ), 0].length) 0)
          [2, 0] [3, 5] [2, 0] [3, 5]).getD 1 none =
        (if [(2 : ℚ), 0].getD 1 0 ≠ 0 ∧ [(3 : ℚ), 5].getD 1 0 ≠ 0 then
          some (0 : ℝ) else none) :=
  ⟨⟨rfl, by decide, by decide⟩,
    calcLog_ratio_one [2, 0] [3, 5] rfl 0 (by decide),
    calcLog_ratio_one [2, 0] [3, 5] rfl 1 (by decide)⟩

/-! ## C10: difference normalization -/

/-- Claim C10 as stated is false: on the empty input sequence `_norm_abs`
returns no value at all (`np.max` raises on a zero-size reduction). -/
theorem norm_abs_empty :
    norm_abs [] = none := by
  rfl

/-- Helper: every element of a list is bounded by the `npMax` result. -/
theorem npMax_is_max (l : List ℚ) (m : ℚ) (hm : npMax l = some m) :
    ∀ x ∈ l, x ≤ m := by
  cases l with
  | nil => simp [npMax] at hm
  | cons a t =>
    simp only [npMax, Option.some.injEq] at hm
    subst hm
    have key : ∀ (t : List ℚ) (init : ℚ),
        init ≤ t.foldl max init ∧ ∀ x ∈ t, x ≤ t.foldl max init := by
      intro t
      induction t with
      | nil => intro init; simp
      | cons b s ih =>
        intro init
        refine ⟨le_trans (le_max_left init b) (ih (max init b)).1, ?_⟩
        intro x hx
        rcases List.mem_cons.mp hx with rfl | hx
        · exact le_trans (le_max_right init x) (ih (max init x)).1
        · exact (ih (max init b)).2 x hx
    intro x hx
    rcases List.mem_cons.mp hx with rfl | hx
    · exact (key t x).1
    · exact (key t a).2 x hx

/-- C10 amended: for every NONEMPTY input sequence `_norm_abs` never divides
by zero: it returns the elementwise absolute values divided by their maximum
when that maximum is nonzero, the absolute values unchanged (divided by 1)
when the maximum is zero, and every output value lies in `[0, 1]`. -/
theorem norm_abs_correct (arr : List ℚ) (h : arr ≠ []) :
    ∃ m ys, npMax (arr.map (fun a => |a|)) = some m ∧ norm_abs arr = some ys ∧
      (m ≠ 0 → ys = arr.map (fun a => |a| / m)) ∧
      (m = 0 → ys = arr.map (fun a => |a|)) ∧
      ∀ y ∈ ys, 0 ≤ y ∧ y ≤ 1 := by
  obtain ⟨a, t, rfl⟩ := List.exists_cons_of_ne_nil h
  obtain ⟨m, hm⟩ : ∃ m, npMax ((a :: t).map (fun x => |x|)) = some m := by
    simp [npMax]
  have hmax := npMax_is_max _ m hm
  have hm0 : 0 ≤ m :=
    le_trans (abs_nonneg a) (hmax |a| (List.mem_map_of_mem _ (by simp)))
  refine ⟨m, (a :: t).map (fun x => |x| / (if m = 0 then 1 else m)),
    hm, ?_, ?_, ?_, ?_⟩
  · unfold norm_abs
    rw [hm]
  · intro hne
    simp [if_neg hne]
  · intro h0
    simp [if_pos h0]
  · intro y hy
    simp only [List.mem_map] at hy
    obtain ⟨x, hx, rfl⟩ := hy
    have hxm : |x| ≤ m := hmax |x| (List.mem_map_of_mem _ hx)
    by_cases h0 : m = 0
    · have hx0 : |x| = 0 := le_antisymm (h0 ▸ hxm) (abs_nonneg x)
      simp [h0, hx0]
    · have hmpos : 0 < m := lt_of_le_of_ne hm0 (Ne.symm h0)
      rw [if_neg h0]
      constructor
      · positivity
      · exact (div_le_one hmpos).mpr hxm

/-- Witness for `norm_abs_correct` on `[3, -6]`: maximum 6, outputs in
range. -/
theorem norm_abs_correct_witness :
    ([(3 : ℚ), -6] ≠ []) ∧
      ∃ m ys, npMax ([(3 : ℚ), -6].map (fun a => |a|)) = some m ∧
        norm_abs [3, -6] = some ys ∧
        (m ≠ 0 → ys = [(3 : ℚ), -6].map (fun a => |a| / m)) ∧
        (m = 0 → ys = [(3 : ℚ), -6].map (fun a => |a|)) ∧
        ∀ y ∈ ys, 0 ≤ y ∧ y ≤ 1 :=
  ⟨by simp, norm_abs_correct [3, -6] (by simp)⟩

/-! ## Calibration model (Chromex_Calibration ver1.0 and ver1.4) -/

/-- Forward transform of the calibration model, `self.a * ch + self.b`,
as used throughout both Chromex files. -/
def applyChannel (a b ch : ℚ) : ℚ := a * ch + b

/-- Moment of the calibration points: sum of channels. -/
def Sx (pts : List (ℚ × ℚ)) : ℚ := (pts.map (fun p => p.1)).sum

/-- Moment of the calibration points: sum of wavelengths. -/
def Sy (pts : List (ℚ × ℚ)) : ℚ := (pts.map (fun p => p.2)).sum

/-- Moment of the calibration points: sum of squared channels. -/
def Sxx (pts : List (ℚ × ℚ)) : ℚ := (pts.map (fun p => p.1 ^ 2)).sum

/-- Moment of the calibration points: sum of channel-wavelength products. -/
def Sxy (pts : List (ℚ × ℚ)) : ℚ := (pts.map (fun p => p.1 * p.2)).sum

/-- Moment of the calibration points: sum of squared wavelengths. -/
def Syy (pts : List (ℚ × ℚ)) : ℚ := (pts.map (fun p => p.2 ^ 2)).sum

/-- Number of calibration points, as a rational. -/
def nPts (pts : List (ℚ × ℚ)) : ℚ := pts.length

/-- Embedding of `np.polyfit(ch, lam, 1)` on the points `(ch_i, lam_i)`.
In the full-rank case (nonzero determinant `n*Sxx - Sx^2`) polyfit returns
the ordinary least-squares line, written here in closed form.  When all
channels coincide at a nonzero value `k` (rank-deficient Vandermonde,
numpy emits only a RankWarning), `numpy.linalg.lstsq` returns the
minimum-norm solution IN THE COLUMN-SCALED BASIS used by polyfit; scaling
the columns `[ch, 1]` by their norms `|k|*sqrt n` and `sqrt n` and solving
`(sgn k * c0 + c1)/sqrt n = mean lam` with minimal `c0^2 + c1^2` gives,
after unscaling, `a = (mean lam)/(2k)` and `b = (mean lam)/2`.  When every
channel is zero the scaled matrix contains 0/0 entries and the SVD fails,
modelled as `none`. -/
def polyfit1 (pts : List (ℚ × ℚ)) : Option (ℚ × ℚ) :=
  if nPts pts * Sxx pts - Sx pts ^ 2 ≠ 0 then
    some ((nPts pts * Sxy pts - Sx pts * Sy pts) / (nPts pts * Sxx pts - Sx pts ^ 2),
          (Sxx pts * Sy pts - Sx pts * Sxy pts) / (nPts pts * Sxx pts - Sx pts ^ 2))
  else if Sxx pts ≠ 0 then
    some ((Sy pts / nPts pts) / (2 * (Sx pts / nPts pts)), (Sy pts / nPts pts) / 2)
  else none

/-- Embedding of `calibrate` of Chromex_Calibration_ver1.0 (lines 107-118):
two points `(ch1, lam1)`, `(ch2, lam2)`; equal channels are rejected with a
warning, leaving the prior coefficients; otherwise the interpolating line
`a = (lam2 - lam1)/(ch2 - ch1)`, `b = lam1 - a*ch1` is stored. -/
def calibrate_v10 (lam1 lam2 ch1 ch2 : ℚ) (prior : Option (ℚ × ℚ)) :
    Option (ℚ × ℚ) :=
  if ch1 = ch2 then prior
  else some ((lam2 - lam1) / (ch2 - ch1),
             lam1 - (lam2 - lam1) / (ch2 - ch1) * ch1)

/-- Embedding of `calibrate` of Chromex_Calibration_ver1.4 (lines 128-147):
after parsing, only `len(lam) < 2` is rejected (prior coefficients kept);
otherwise `self.a, self.b = np.polyfit(ch, lam, 1)` is assigned
unconditionally -- there is NO distinct-channel check.  A raising polyfit
(modelled `none`) leaves the prior coefficients in place. -/
def calibrate_v14 (pts : List (ℚ × ℚ)) (prior : Option (ℚ × ℚ)) :
    Option (ℚ × ℚ) :=
  if pts.length < 2 then prior
  else match polyfit1 pts with
    | some ab => some ab
    | none => prior

/-- Sum of squared residuals of the affine model `(a, b)` on the points. -/
def sse (pts : List (ℚ × ℚ)) (a b : ℚ) : ℚ :=
  (pts.map (fun p => (p.2 - applyChannel a b p.1) ^ 2)).sum

/-! ## C3: ver1.4 fits even when all channels coincide -/

/-- C3 failing input, evaluated: ver1.4 `calibrate` on the two rows
`(ch, lam) = (100, 500), (100, 600)` with no prior calibration passes the
`len >= 2` check, and `np.polyfit` returns the rank-deficient minimum-norm
solution `(a, b) = (11/4, 275)`, which IS assigned -- the model does not
stay uncalibrated, contradicting the claim and the explicit
`ch1 == ch2` guard of ver1.0. -/
theorem calibrate_v14_degenerate_sets_coefficients :
    calibrate_v14 [(100, 500), (100, 600)] none = some (11/4, 275) := by
  norm_num [calibrate_v14, polyfit1, nPts, Sx, Sy, Sxx, Sxy]

/-! ## C5: round trip and least-squares optimality -/

/-- Cons lemma for `Sx`. -/
theorem Sx_cons (p : ℚ × ℚ) (t : List (ℚ × ℚ)) : Sx (p :: t) = p.1 + Sx t := by
  simp [Sx]

/-- Cons lemma for `Sy`. -/
theorem Sy_cons (p : ℚ × ℚ) (t : List (ℚ × ℚ)) : Sy (p :: t) = p.2 + Sy t := by
  simp [Sy]

/-- Cons lemma for `Sxx`. -/
theorem Sxx_cons (p : ℚ × ℚ) (t : List (ℚ × ℚ)) :
    Sxx (p :: t) = p.1 ^ 2 + Sxx t := by
  simp [Sxx]

/-- Cons lemma for `Sxy`. -/
theorem Sxy_cons (p : ℚ × ℚ) (t : List (ℚ × ℚ)) :
    Sxy (p :: t) = p.1 * p.2 + Sxy t := by
  simp [Sxy]

/-- Cons lemma for `Syy`. -/
theorem Syy_cons (p : ℚ × ℚ) (t : List (ℚ × ℚ)) :
    Syy (p :: t) = p.2 ^ 2 + Syy t := by
  simp [Syy]

/-- Cons lemma for `nPts`. -/
theorem nPts_cons (p : ℚ × ℚ) (t : List (ℚ × ℚ)) : nPts (p :: t) = nPts t + 1 := by
  simp [nPts]

/-- Cons lemma for `sse`. -/
theorem sse_cons (p : ℚ × ℚ) (t : List (ℚ × ℚ)) (c d : ℚ) :
    sse (p :: t) c d = (p.2 - (c * p.1 + d)) ^ 2 + sse t c d := by
  simp [sse, applyChannel]

/-- The residual sum of squares expands into the five moments. -/
theorem sse_expand (pts : List (ℚ × ℚ)) (c d : ℚ) :
    sse pts c d = Syy pts - 2 * c * Sxy pts - 2 * d * Sy pts +
      c ^ 2 * Sxx pts + 2 * c * d * Sx pts + d ^ 2 * nPts pts := by
  induction pts with
  | nil => simp [sse, Syy, Sxy, Sy, Sxx, Sx, nPts]
  | cons p t ih =>
    rw [sse_cons, ih, Syy_cons, Sxy_cons, Sy_cons, Sxx_cons, Sx_cons, nPts_cons]
    ring

/-- Two distinct values of a finite family make the scaled variance
`n * sum of squares - (sum)^2` strictly positive: it equals
`(1/n) * sum of (n * F i - S)^2`, and not all terms can vanish. -/
theorem sum_sq_det_pos {n : ℕ} (F : Fin n → ℚ) (iu iv : Fin n)
    (hne : F iu ≠ F iv) :
    0 < (n : ℚ) * (∑ i, F i ^ 2) - (∑ i, F i) ^ 2 := by
  have hn : 0 < n := Nat.pos_of_ne_zero (by rintro rfl; exact iu.elim0)
  have hnq : (0 : ℚ) < n := by exact_mod_cast hn
  have e1 : ∀ i : Fin n, ((n : ℚ) * F i - ∑ j, F j) ^ 2 =
      (n : ℚ) ^ 2 * F i ^ 2 - (2 * (n : ℚ) * ∑ j, F j) * F i + (∑ j, F j) ^ 2 :=
    fun i => by ring
  have hid : (∑ i, ((n : ℚ) * F i - ∑ j, F j) ^ 2) =
      (n : ℚ) * ((n : ℚ) * (∑ i, F i ^ 2) - (∑ i, F i) ^ 2) := by
    rw [Finset.sum_congr rfl fun i _ => e1 i, Finset.sum_add_distrib,
      Finset.sum_sub_distrib, ← Finset.mul_sum, ← Finset.mul_sum,
      Finset.sum_const, Finset.card_univ, Fintype.card_fin, nsmul_eq_mul]
    ring
  have hex : (n : ℚ) * F iu - ∑ j, F j ≠ 0 ∨ (n : ℚ) * F iv - ∑ j, F j ≠ 0 := by
    by_contra hcon
    push_neg at hcon
    apply hne
    have h1 := sub_eq_zero.mp hcon.1
    have h2 := sub_eq_zero.mp hcon.2
    exact mul_left_cancel₀ (ne_of_gt hnq) (h1.trans h2.symm)
  have hgen : ∀ i0 : Fin n, (n : ℚ) * F i0 - ∑ j, F j ≠ 0 →
      0 < ∑ i, ((n : ℚ) * F i - ∑ j, F j) ^ 2 := by
    intro i0 h
    have hle : ((n : ℚ) * F i0 - ∑ j, F j) ^ 2 ≤
        ∑ i, ((n : ℚ) * F i - ∑ j, F j) ^ 2 := by
      apply Finset.single_le_sum (fun j _ => sq_nonneg _) (Finset.mem_univ i0)
    exact lt_of_lt_of_le
      (lt_of_le_of_ne (sq_nonneg _) (Ne.symm (pow_ne_zero 2 h))) hle
  have hpos : 0 < ∑ i, ((n : ℚ) * F i - ∑ j, F j) ^ 2 := by
    rcases hex with h | h
    · exact hgen iu h
    · exact hgen iv h
  nlinarith [hid, hpos, hnq]

/-- List form of `sum_sq_det_pos`: two distinct members of a list make
`length * sum of squares - (sum)^2` strictly positive. -/
theorem det_pos_of_list (xs : List ℚ) (u v : ℚ) (hu : u ∈ xs) (hv : v ∈ xs)
    (huv : u ≠ v) :
    0 < (xs.length : ℚ) * (xs.map (fun x => x ^ 2)).sum - xs.sum ^ 2 := by
  obtain ⟨iu, hiu⟩ := List.mem_iff_get.mp hu
  obtain ⟨iv, hiv⟩ := List.mem_iff_get.mp hv
  have hsum : xs.sum = ∑ i : Fin xs.length, xs.get i := by
    conv_lhs => rw [← List.ofFn_get xs]
    rw [List.sum_ofFn]
  have hmap : (xs.map (fun x => x ^ 2)).sum = ∑ i : Fin xs.length, xs.get i ^ 2 := by
    conv_lhs => rw [← List.ofFn_get xs]
    rw [List.map_ofFn, List.sum_ofFn]
    rfl
  rw [hsum, hmap]
  exact sum_sq_det_pos xs.get iu iv (by rw [hiu, hiv]; exact huv)

/-- Distinct channels among the points make the polyfit determinant
positive. -/
theorem det_pos (pts : List (ℚ × ℚ)) (p q : ℚ × ℚ) (hp : p ∈ pts) (hq : q ∈ pts)
    (hne : p.1 ≠ q.1) :
    0 < nPts pts * Sxx pts - Sx pts ^ 2 := by
  have := det_pos_of_list (pts.map (fun r => r.1)) p.1 q.1
    (List.mem_map_of_mem _ hp) (List.mem_map_of_mem _ hq) hne
  simpa [nPts, Sx, Sxx, List.map_map, Function.comp] using this

/-- C5: fitting then applying reproduces the inputs.  First part: the
exact two-point fit of ver1.0 round-trips both calibration points exactly.
Second part: whenever ver1.4 `np.polyfit` succeeds on a point set with two
distinct channels, the returned coefficients minimize the summed squared
residual over all affine models. -/
theorem fit_roundtrip_and_least_squares :
    (∀ lam1 lam2 ch1 ch2 : ℚ, ∀ prior : Option (ℚ × ℚ), ∀ a b : ℚ,
        ch1 ≠ ch2 → calibrate_v10 lam1 lam2 ch1 ch2 prior = some (a, b) →
        applyChannel a b ch1 = lam1 ∧ applyChannel a b ch2 = lam2) ∧
    (∀ pts : List (ℚ × ℚ), ∀ p q : ℚ × ℚ, p ∈ pts → q ∈ pts → p.1 ≠ q.1 →
        ∀ a b : ℚ, polyfit1 pts = some (a, b) →
        ∀ c d : ℚ, sse pts a b ≤ sse pts c d) := by
  constructor
  · intro lam1 lam2 ch1 ch2 prior a b hne hfit
    rw [calibrate_v10, if_neg hne] at hfit
    obtain ⟨rfl, rfl⟩ : (lam2 - lam1) / (ch2 - ch1) = a ∧
        lam1 - (lam2 - lam1) / (ch2 - ch1) * ch1 = b := by
      simpa [Prod.ext_iff] using hfit
    have hds : ch2 - ch1 ≠ 0 := sub_ne_zero.mpr (Ne.symm hne)
    constructor
    · unfold applyChannel; ring
    · unfold applyChannel
      field_simp
      ring
  · intro pts p q hp hq hpq a b hfit c d
    have hn : 0 < nPts pts := by
      have : 0 < pts.length := List.length_pos.mpr (List.ne_nil_of_mem hp)
      unfold nPts
      exact_mod_cast this
    have hD : 0 < nPts pts * Sxx pts - Sx pts ^ 2 := det_pos pts p q hp hq hpq
    have hD' : nPts pts * Sxx pts - Sx pts ^ 2 ≠ 0 := ne_of_gt hD
    rw [polyfit1, if_pos hD'] at hfit
    obtain ⟨rfl, rfl⟩ : (nPts pts * Sxy pts - Sx pts * Sy pts) /
          (nPts pts * Sxx pts - Sx pts ^ 2) = a ∧
        (Sxx pts * Sy pts - Sx pts * Sxy pts) /
          (nPts pts * Sxx pts - Sx pts ^ 2) = b := by
      simpa [Prod.ext_iff] using hfit
    set a : ℚ := (nPts pts * Sxy pts - Sx pts * Sy pts) /
      (nPts pts * Sxx pts - Sx pts ^ 2) with ha
    set b : ℚ := (Sxx pts * Sy pts - Sx pts * Sxy pts) /
      (nPts pts * Sxx pts - Sx pts ^ 2) with hb
    have key : sse pts c d - sse pts a b =
        Sxx pts * (c - a) ^ 2 + 2 * Sx pts * ((c - a) * (d - b)) +
          nPts pts * (d - b) ^ 2 := by
      rw [sse_expand, sse_expand, ha, hb]
      field_simp
      ring
    nlinarith [sq_nonneg (nPts pts * (d - b) + Sx pts * (c - a)),
      sq_nonneg (c - a), hD, hn, key]

/-- Witness for `fit_roundtrip_and_least_squares`: the two-point fit through
`(0, 1)` and `(1, 3)` gives `(a, b) = (2, 1)` and round-trips; the
three-point fit of `[(0,0), (1,1), (2,4)]` gives `(2, -1/3)`, which beats
the competitor line `(1, 0)`. -/
theorem fit_roundtrip_and_least_squares_witness :
    (applyChannel 2 1 0 = 1 ∧ applyChannel 2 1 1 = 3) ∧
      sse [(0, 0), (1, 1), (2, 4)] 2 (-1/3) ≤ sse [(0, 0), (1, 1), (2, 4)] 1 0 :=
  ⟨fit_roundtrip_and_least_squares.1 1 3 0 1 none 2 1 (by norm_num)
      (by norm_num [calibrate_v10]),
    fit_roundtrip_and_least_squares.2 [(0, 0), (1, 1), (2, 4)] (0, 0) (1, 1)
      (by simp) (by simp) (by norm_num) 2 (-1/3)
      (by norm_num [polyfit1, nPts, Sx, Sy, Sxx, Sxy]) 1 0⟩

/-! ## ΔAbs smoothing step: np.convolve with mode same -/

/-- Embedding of the full discrete convolution `np.convolve(a, v)`:
entry `n` of the result (length `len(a) + len(v) - 1`) is
`sum over j of a[j] * v[n - j]` for the indices in range. -/
def fullConv (a v : List ℚ) : List ℚ :=
  (List.range (a.length + v.length - 1)).map fun n =>
    ∑ j ∈ Finset.range a.length,
      if j ≤ n then a.getD j 0 * v.getD (n - j) 0 else 0

/-- Embedding of `np.convolve(a, v, mode same)`: the centered slice of the
full convolution, of length `max(len(a), len(v))`, starting at offset
`(min(len(a), len(v)) - 1) / 2`. -/
def convolveSame (a v : List ℚ) : List ℚ :=
  ((fullConv a v).drop ((min a.length v.length - 1) / 2)).take
    (max a.length v.length)

/-- Embedding of the smoothing step of `plot_graph` (GUI_ver3.7, line 154):
`np.convolve(log_vals, np.ones(filter_width)/filter_width, mode same)`,
with `filter_width` the global set to 5 in `__init__` (lines 16-17). -/
def smooth (w : ℕ) (xs : List ℚ) : List ℚ :=
  convolveSame xs (List.replicate w ((w : ℚ)⁻¹))

/-- Claim C6 as stated is false on traces shorter than the filter width:
`np.convolve(mode same)` returns `max(N, w)` values, so a raw trace of
length 3 smoothed with the default width 5 comes back with length 5,
not 3. -/
theorem smooth_short_trace_wrong_length :
    (smooth 5 [1, 2, 3]).length ≠ 3 := by
  simp only [smooth, convolveSame, fullConv, List.length_take, List.length_drop,
    List.length_map, List.length_range, List.length_replicate, List.length_cons,
    List.length_nil]
  omega

/-- Helper: `getD` on a replicated list. -/
theorem getD_replicate (w t : ℕ) (c : ℚ) :
    (List.replicate w c).getD t 0 = if t < w then c else 0 := by
  rw [List.getD_eq_getElem?_getD, List.getElem?_replicate]
  split <;> simp

/-- C6 amended: provided the trace is at least as long as the (odd) filter
width `w = 2*h + 1`, the smoothing step returns a trace of the same length
`N`, whose every channel -- edge channels included -- is the sum of the
in-range window values divided by the full width `w` (implicit zero padding
outside the valid range, no renormalization by the reduced sample count). -/
theorem smooth_window (xs : List ℚ) (w h : ℕ) (hw : w = 2 * h + 1)
    (hN : w ≤ xs.length) :
    (smooth w xs).length = xs.length ∧
    ∀ i, i < xs.length →
      (smooth w xs).getD i 0 =
        (∑ j ∈ Finset.range xs.length,
          if i ≤ j + h ∧ j ≤ i + h then xs.getD j 0 else 0) / (w : ℚ) := by
  have hkl : (List.replicate w ((w : ℚ)⁻¹)).length = w := by simp
  constructor
  · simp only [smooth, convolveSame, fullConv, List.length_take, List.length_drop,
      List.length_map, List.length_range, List.length_replicate]
    omega
  · intro i hi
    have hstep : (smooth w xs).getD i 0 =
        (fullConv xs (List.replicate w ((w : ℚ)⁻¹))).getD (h + i) 0 := by
      simp only [smooth, convolveSame, hkl, List.getD_eq_getElem?_getD]
      rw [show (min xs.length w - 1) / 2 = h by omega]
      rw [List.getElem?_take, if_pos (by omega : i < max xs.length w)]
      rw [List.getElem?_drop]
    rw [hstep]
    have hentry : (fullConv xs (List.replicate w ((w : ℚ)⁻¹))).getD (h + i) 0 =
        ∑ j ∈ Finset.range xs.length,
          (if j ≤ h + i then
            xs.getD j 0 * (List.replicate w ((w : ℚ)⁻¹)).getD (h + i - j) 0
          else 0) := by
      simp only [fullConv, hkl, List.getD_eq_getElem?_getD]
      rw [List.getElem?_map,
        List.getElem?_range (by omega : h + i < xs.length + w - 1)]
      simp
    rw [hentry]
    have hterm : ∀ j ∈ Finset.range xs.length,
        (if j ≤ h + i then
          xs.getD j 0 * (List.replicate w ((w : ℚ)⁻¹)).getD (h + i - j) 0
        else 0) =
        (if i ≤ j + h ∧ j ≤ i + h then xs.getD j 0 else 0) * (w : ℚ)⁻¹ := by
      intro j hj
      rw [getD_replicate]
      by_cases h1 : j ≤ h + i
      · rw [if_pos h1]
        by_cases h2 : h + i - j < w
        · rw [if_pos h2, if_pos (by omega : i ≤ j + h ∧ j ≤ i + h)]
        · rw [if_neg h2, if_neg (by omega : ¬(i ≤ j + h ∧ j ≤ i + h)),
            mul_zero, zero_mul]
      · rw [if_neg h1, if_neg (by omega : ¬(i ≤ j + h ∧ j ≤ i + h)), zero_mul]
    rw [Finset.sum_congr rfl hterm, ← Finset.sum_mul, div_eq_mul_inv]

/-- Witness for `smooth_window` at the default width 5 on a length-5
trace. -/
theorem smooth_window_witness :
    ((5 : ℕ) = 2 * 2 + 1 ∧ 5 ≤ [(1 : ℚ), 2, 3, 4, 5].length) ∧
      ((smooth 5 [1, 2, 3, 4, 5]).length = [(1 : ℚ), 2, 3, 4, 5].length ∧
        ∀ i, i < [(1 : ℚ), 2, 3, 4, 5].length →
          (smooth 5 [1, 2, 3, 4, 5]).getD i 0 =
            (∑ j ∈ Finset.range [(1 : ℚ), 2, 3, 4, 5].length,
              if i ≤ j + 2 ∧ j ≤ i + 2 then [(1 : ℚ), 2, 3, 4, 5].getD j 0
              else 0) / ((5 : ℕ) : ℚ)) :=
  ⟨⟨rfl, by simp⟩, smooth_window [1, 2, 3, 4, 5] 5 2 rfl (by simp)⟩

/-! ## Peak finder: scipy.signal.find_peaks and detect_peaks -/

/-- Embedding of the plateau scan inside scipy `_local_maxima_1d`: starting
at `j`, advance while `j < iMax` and the sample still equals the plateau
value `xi`; return the first index past the plateau. -/
def plateauEnd (x : List ℚ) (iMax : ℕ) (xi : ℚ) (j : ℕ) : ℕ :=
  if h : j < iMax ∧ x.getD j 0 = xi then plateauEnd x iMax xi (j + 1) else j
termination_by iMax - j
decreasing_by
  have h1 := h.1
  omega

/-- Embedding of the main loop of scipy `_local_maxima_1d`: scan
`i = 1 .. iMax - 1`; when `x[i-1] < x[i]` and the sample right after the
plateau of `x[i]` is strictly smaller, emit the plateau midpoint
`(left_edge + right_edge) / 2`.  (The original advances `i` to the plateau
end after a hit; scanning every `i` instead is equivalent, because inside
a plateau `x[i-1] < x[i]` fails.) -/
def lmLoop (x : List ℚ) (iMax : ℕ) (i : ℕ) : List ℕ :=
  if h : i < iMax then
    (if x.getD (i - 1) 0 < x.getD i 0 then
      (if x.getD (plateauEnd x iMax (x.getD i 0) (i + 1)) 0 < x.getD i 0 then
        [(i + (plateauEnd x iMax (x.getD i 0) (i + 1) - 1)) / 2]
      else [])
    else []) ++ lmLoop x iMax (i + 1)
  else []
termination_by iMax - i

/-- Embedding of scipy `_local_maxima_1d(x)`: interior local maxima with
plateau midpoints; the two boundary samples are never peaks. -/
def localMaxima (x : List ℚ) : List ℕ :=
  lmLoop x (x.length - 1) 1

/-- Horizontal distance between two channel indices. -/
def chDist (p q : ℕ) : ℕ := max p q - min p q

/-- One step of scipy `_select_by_peak_distance`: when the peak with index
`j` (into the peak list `pk`) is processed and still kept, every OTHER peak
whose position is closer than `dist` to the position of peak `j` is marked
not-kept.  (scipy walks outward from `j` and stops at the first peak at
distance `>= dist`; since the peak positions are in increasing order this
clears exactly the peaks within `dist`.) -/
def clearOthers (pk : List ℕ) (dist j : ℕ) (keep : ℕ → Bool) : ℕ → Bool :=
  fun k =>
    if k ≠ j ∧ chDist (pk.getD k 0) (pk.getD j 0) < dist then false else keep k

/-- The processing loop of scipy `_select_by_peak_distance`: peaks are
visited in the given priority order; an already-cleared peak is skipped,
a still-kept one clears its too-close neighbours. -/
def selectKeep (pk : List ℕ) (dist : ℕ) : List ℕ → (ℕ → Bool) → (ℕ → Bool)
  | [], keep => keep
  | j :: rest, keep =>
      if keep j then selectKeep pk dist rest (clearOthers pk dist j keep)
      else selectKeep pk dist rest keep

/-- The order in which `_select_by_peak_distance` visits the peaks:
`np.argsort(priority)` reversed, so highest intensity first (the tie order
of the unstable numpy sort is unspecified; a stable sort is used here). -/
def priorityOrder (x : List ℚ) (pk : List ℕ) : List ℕ :=
  (List.insertionSort
    (fun i j => x.getD (pk.getD i 0) 0 ≤ x.getD (pk.getD j 0) 0)
    (List.range pk.length)).reverse

/-- Embedding of scipy `_select_by_peak_distance` followed by
`peaks = peaks[keep]`: the surviving peak positions, in position order. -/
def distanceFilter (x : List ℚ) (pk : List ℕ) (dist : ℕ) : List ℕ :=
  ((List.range pk.length).filter
    (fun i => selectKeep pk dist (priorityOrder x pk) (fun _ => true) i)).map
    (fun i => pk.getD i 0)

/-- Embedding of the left base scan of scipy `peak_prominences`: walk left
from `i` while the sample does not exceed the peak height `xp`, tracking
the minimum. -/
def leftBaseMin (x : List ℚ) (xp : ℚ) : ℕ → ℚ → ℚ
  | 0, m => if x.getD 0 0 ≤ xp then min m (x.getD 0 0) else m
  | i + 1, m =>
      if x.getD (i + 1) 0 ≤ xp then leftBaseMin x xp i (min m (x.getD (i + 1) 0))
      else m

/-- Embedding of the right base scan of scipy `peak_prominences`: walk right
from `i` up to `iMax` while the sample does not exceed `xp`, tracking the
minimum. -/
def rightBaseMin (x : List ℚ) (xp : ℚ) (iMax : ℕ) (i : ℕ) (m : ℚ) : ℚ :=
  if x.getD i 0 ≤ xp then
    (if h : i < iMax then rightBaseMin x xp iMax (i + 1) (min m (x.getD i 0))
     else min m (x.getD i 0))
  else m
termination_by iMax - i

/-- Embedding of scipy `peak_prominences` for one peak position `p` (full
window): peak height minus the higher of the two base minima. -/
def prominence (x : List ℚ) (p : ℕ) : ℚ :=
  x.getD p 0 -
    max (leftBaseMin x (x.getD p 0) p (x.getD p 0))
      (rightBaseMin x (x.getD p 0) (x.length - 1) p (x.getD p 0))

/-- Embedding of `scipy.signal.find_peaks(data, prominence=prom,
distance=dist)`: local maxima, then the distance filter, then the
prominence threshold (`pmin <= prominences`, inclusive). -/
def find_peaks_sp (x : List ℚ) (prom : ℚ) (dist : ℕ) : List ℕ :=
  (distanceFilter x (localMaxima x) dist).filter
    (fun p => prom ≤ prominence x p)

/-- `peaks[np.argsort(data[peaks])]`: the peak positions sorted by
ascending intensity (numpy tie order unspecified; stable sort used). -/
def sortByIntensity (x : List ℚ) (pk : List ℕ) : List ℕ :=
  List.insertionSort (fun p q => x.getD p 0 ≤ x.getD q 0) pk

/-- Embedding of `detect_peaks` of Chromex_Calibration_ver1.4 (lines
166-185): `top = peaks[np.argsort(data[peaks])][::-1][:5]`. -/
def detect_peaks_v14 (x : List ℚ) (prom : ℚ) (dist : ℕ) : List ℕ :=
  ((sortByIntensity x (find_peaks_sp x prom dist)).reverse).take 5

/-- Embedding of `detect_peaks` of Chromex_Calibration_ver1.0 (lines
136-148): `top = peaks[np.argsort(data[peaks])[-2:]][::-1]`. -/
def detect_peaks_v10 (x : List ℚ) (prom : ℚ) (dist : ℕ) : List ℕ :=
  ((sortByIntensity x (find_peaks_sp x prom dist)).drop
    ((sortByIntensity x (find_peaks_sp x prom dist)).length - 2)).reverse

/-- The channel distance is symmetric. -/
theorem chDist_comm (p q : ℕ) : chDist p q = chDist q p := by
  unfold chDist
  omega

/-- A peak once cleared stays cleared through the rest of the processing
loop. -/
theorem selectKeep_false (pk : List ℕ) (dist : ℕ) (order : List ℕ)
    (keep : ℕ → Bool) (i : ℕ) (h : keep i = false) :
    selectKeep pk dist order keep i = false := by
  induction order generalizing keep with
  | nil => exact h
  | cons j rest ih =>
    simp only [selectKeep]
    by_cases hk : keep j = true
    · rw [if_pos hk]
      apply ih
      show (if i ≠ j ∧ chDist (pk.getD i 0) (pk.getD j 0) < dist then false
        else keep i) = false
      split
      · rfl
      · exact h
    · rw [if_neg hk]
      exact ih keep h

/-- Two distinct peaks whose positions are closer than the distance bound
cannot both survive the processing loop: when the first of the two to be
visited is still kept it clears the other, and if it was itself already
cleared it stays cleared. -/
theorem selectKeep_not_both (pk : List ℕ) (dist : ℕ) (order : List ℕ)
    (keep : ℕ → Bool) (i1 i2 : ℕ) (h1 : i1 ∈ order) (h2 : i2 ∈ order)
    (hne : i1 ≠ i2) (hclose : chDist (pk.getD i1 0) (pk.getD i2 0) < dist)
    (k1 : selectKeep pk dist order keep i1 = true)
    (k2 : selectKeep pk dist order keep i2 = true) : False := by
  induction order generalizing keep with
  | nil => simp at h1
  | cons j rest ih =>
    simp only [selectKeep] at k1 k2
    by_cases hj1 : i1 = j
    · subst hj1
      by_cases hk : keep i1 = true
      · rw [if_pos hk] at k1 k2
        have hcl : clearOthers pk dist i1 keep i2 = false := by
          have hc2 : chDist (pk.getD i2 0) (pk.getD i1 0) < dist := by
            rw [chDist_comm]; exact hclose
          show (if i2 ≠ i1 ∧ chDist (pk.getD i2 0) (pk.getD i1 0) < dist then
            false else keep i2) = false
          rw [if_pos ⟨Ne.symm hne, hc2⟩]
        rw [selectKeep_false pk dist rest _ i2 hcl] at k2
        exact Bool.noConfusion k2
      · rw [if_neg hk] at k1
        have hkf : keep i1 = false := Bool.eq_false_iff.mpr hk
        rw [selectKeep_false pk dist rest keep i1 hkf] at k1
        exact Bool.noConfusion k1
    · by_cases hj2 : i2 = j
      · subst hj2
        by_cases hk : keep i2 = true
        · rw [if_pos hk] at k1 k2
          have hcl : clearOthers pk dist i2 keep i1 = false := by
            show (if i1 ≠ i2 ∧ chDist (pk.getD i1 0) (pk.getD i2 0) < dist then
              false else keep i1) = false
            rw [if_pos ⟨hne, hclose⟩]
          rw [selectKeep_false pk dist rest _ i1 hcl] at k1
          exact Bool.noConfusion k1
        · rw [if_neg hk] at k2
          have hkf : keep i2 = false := Bool.eq_false_iff.mpr hk
          rw [selectKeep_false pk dist rest keep i2 hkf] at k2
          exact Bool.noConfusion k2
      · have h1r : i1 ∈ rest := by
          rcases List.mem_cons.mp h1 with h | h
          · exact absurd h hj1
          · exact h
        have h2r : i2 ∈ rest := by
          rcases List.mem_cons.mp h2 with h | h
          · exact absurd h hj2
          · exact h
        by_cases hk : keep j = true
        · rw [if_pos hk] at k1 k2
          exact ih _ h1r h2r k1 k2
        · rw [if_neg hk] at k1 k2
          exact ih keep h1r h2r k1 k2

/-- Every index below the peak count is visited by the processing order. -/
theorem mem_priorityOrder (x : List ℚ) (pk : List ℕ) (i : ℕ)
    (h : i ∈ List.range pk.length) : i ∈ priorityOrder x pk := by
  unfold priorityOrder
  rw [List.mem_reverse]
  exact ((List.perm_insertionSort _ _).mem_iff).mpr h

/-- The distance filter output is pairwise separated by at least `dist`. -/
theorem distanceFilter_pairwise (x : List ℚ) (pk : List ℕ) (dist : ℕ) :
    (distanceFilter x pk dist).Pairwise (fun p q => dist ≤ chDist p q) := by
  unfold distanceFilter
  rw [List.pairwise_map]
  have hnd : ((List.range pk.length).filter
      (fun i =>
        selectKeep pk dist (priorityOrder x pk) (fun _ => true) i)).Pairwise
      (fun a b => a ≠ b) :=
    List.Nodup.filter _ (List.nodup_range pk.length)
  refine hnd.imp_of_mem ?_
  intro a b ha hb hab
  by_contra hlt
  push_neg at hlt
  have hka := (List.mem_filter.mp ha).2
  have hkb := (List.mem_filter.mp hb).2
  have har : a ∈ List.range pk.length := (List.mem_filter.mp ha).1
  have hbr : b ∈ List.range pk.length := (List.mem_filter.mp hb).1
  exact selectKeep_not_both pk dist (priorityOrder x pk) (fun _ => true) a b
    (mem_priorityOrder x pk a har) (mem_priorityOrder x pk b hbr) hab hlt
    (by simpa using hka) (by simpa using hkb)

/-- The separation relation is symmetric. -/
theorem sep_symm (dist : ℕ) :
    Symmetric (fun p q : ℕ => dist ≤ chDist p q) := by
  intro p q h
  rwa [chDist_comm]

/-- Flipping the separation relation over a pairwise-separated list. -/
theorem pairwise_sep_flip {dist : ℕ} {l : List ℕ}
    (h : l.Pairwise (fun p q => dist ≤ chDist p q)) :
    l.Pairwise (fun p q : ℕ => dist ≤ chDist q p) := by
  refine h.imp ?_
  intro a b hab
  rwa [chDist_comm]

/-- The full `find_peaks` output is pairwise separated by at least
`dist`. -/
theorem find_peaks_pairwise (x : List ℚ) (prom : ℚ) (dist : ℕ) :
    (find_peaks_sp x prom dist).Pairwise (fun p q => dist ≤ chDist p q) := by
  unfold find_peaks_sp
  exact List.Pairwise.filter _ (distanceFilter_pairwise x (localMaxima x) dist)

/-- Separation survives the intensity sort. -/
theorem sorted_peaks_pairwise (x : List ℚ) (prom : ℚ) (dist : ℕ) :
    (sortByIntensity x (find_peaks_sp x prom dist)).Pairwise
      (fun p q => dist ≤ chDist p q) := by
  have hsym : ∀ {p q : ℕ}, dist ≤ chDist p q → dist ≤ chDist q p := by
    intro p q h
    rwa [chDist_comm]
  exact ((List.perm_insertionSort _ _).pairwise_iff hsym).mpr
    (find_peaks_pairwise x prom dist)

/-- The intensity sort really sorts: ascending intensity. -/
theorem sorted_peaks_sorted (x : List ℚ) (pk : List ℕ) :
    (sortByIntensity x pk).Pairwise (fun p q => x.getD p 0 ≤ x.getD q 0) := by
  unfold sortByIntensity
  haveI : IsTotal ℕ (fun p q : ℕ => x.getD p 0 ≤ x.getD q 0) :=
    ⟨fun a b => le_total _ _⟩
  haveI : IsTrans ℕ (fun p q : ℕ => x.getD p 0 ≤ x.getD q 0) :=
    ⟨fun a b c hab hbc => le_trans hab hbc⟩
  exact List.sorted_insertionSort _ _

/-- C8: both `detect_peaks` variants return at most `top_k` indices
(5 for ver1.4, 2 for ver1.0), ordered by descending intensity at the
candidate, and no two returned indices are closer than the distance
parameter (`List.Pairwise` over the output covers every pair). -/
theorem detect_peaks_props (x : List ℚ) (prom : ℚ) (dist : ℕ) :
    ((detect_peaks_v14 x prom dist).length ≤ 5 ∧
      (detect_peaks_v10 x prom dist).length ≤ 2) ∧
    ((detect_peaks_v14 x prom dist).Pairwise
        (fun p q => x.getD q 0 ≤ x.getD p 0) ∧
      (detect_peaks_v10 x prom dist).Pairwise
        (fun p q => x.getD q 0 ≤ x.getD p 0)) ∧
    ((detect_peaks_v14 x prom dist).Pairwise (fun p q => dist ≤ chDist p q) ∧
      (detect_peaks_v10 x prom dist).Pairwise
        (fun p q => dist ≤ chDist p q)) := by
  refine ⟨⟨?_, ?_⟩, ⟨?_, ?_⟩, ?_, ?_⟩
  · simp only [detect_peaks_v14, List.length_take]
    omega
  · simp only [detect_peaks_v10, List.length_reverse, List.length_drop]
    omega
  · apply List.Pairwise.sublist (List.take_sublist _ _)
    rw [List.pairwise_reverse]
    exact sorted_peaks_sorted x _
  · unfold detect_peaks_v10
    rw [List.pairwise_reverse]
    exact List.Pairwise.sublist (List.drop_sublist _ _) (sorted_peaks_sorted x _)
  · apply List.Pairwise.sublist (List.take_sublist _ _)
    rw [List.pairwise_reverse]
    exact pairwise_sep_flip (sorted_peaks_pairwise x prom dist)
  · unfold detect_peaks_v10
    rw [List.pairwise_reverse]
    exact pairwise_sep_flip (List.Pairwise.sublist (List.drop_sublist _ _)
      (sorted_peaks_pairwise x prom dist))
